import Mathlib

set_option maxRecDepth 1000000

/-!
Verification development for the indexed, block-compressed binary alignment
store ("bigPsl"-style container) and its alignment coordinate algebra.
The repository ships the test suite for this component
(`Tests/test_Align_bigpsl.py`); the component itself is modelled here from
the specification, with every concrete number cross-checked against the
expected values asserted by that test suite.
-/

namespace BigPsl

/-! ## Alignment coordinate model

The coordinate model of a pairwise alignment is a 2 × N matrix of
non-negative integers: a target row and a query row, each column being a
breakpoint.  We represent the two rows as lists of naturals.  The target
row is monotonically non-decreasing; the query row is non-decreasing on the
forward strand and non-increasing on the reverse strand. -/

/-- Absolute difference of two naturals (the per-row advance between two
adjacent columns, independent of strand direction). -/
def dist (a b : Nat) : Nat := (a - b) + (b - a)

/-- Modelled from the spec: the per-column-pair advances of the two rows.
For adjacent columns the target advance is the (non-negative) difference of
the target row, and the query advance is the absolute difference of the
query row (reverse-strand query rows decrease). -/
def colSteps : List Nat → List Nat → List (Nat × Nat)
  | t1 :: t2 :: ts, q1 :: q2 :: qs => (t2 - t1, dist q1 q2) :: colSteps (t2 :: ts) (q2 :: qs)
  | _, _ => []

/-- Classification of a primitive step of the coordinate model. -/
inductive StepClass where
  | aligned
  | insertion
  | deletion
deriving DecidableEq, Repr

/-- Modelled from the spec: decompose one raw column-pair advance
`(dt, dq)` into primitive steps: an aligned run equal to the smaller
advance, followed by an insertion (query-only advance) or deletion
(target-only advance) of the remainder.  A column pair where both rows
advance by zero contributes nothing. -/
def normStep (dt dq : Nat) : List (StepClass × Nat) :=
  (if 0 < min dt dq then [(StepClass.aligned, min dt dq)] else []) ++
  (if dt < dq then [(StepClass.insertion, dq - dt)] else []) ++
  (if dq < dt then [(StepClass.deletion, dt - dq)] else [])

/-- Merge consecutive primitive steps of the same class into maximal runs. -/
def mergeRuns : List (StepClass × Nat) → List (StepClass × Nat)
  | [] => []
  | (c, d) :: rest =>
    match mergeRuns rest with
    | [] => [(c, d)]
    | (c2, d2) :: rs =>
      if c = c2 then (c, d + d2) :: rs else (c, d) :: (c2, d2) :: rs

/-- Modelled from the spec: the maximal aligned/insertion/deletion runs of
an alignment given by its two coordinate rows. -/
def runsOf (tRow qRow : List Nat) : List (StepClass × Nat) :=
  mergeRuns ((colSteps tRow qRow).flatMap fun s => normStep s.1 s.2)

/-- Position of a gap run in the run sequence: the first run is a left gap,
the last run is a right gap, every other run is internal. -/
inductive GapPos where
  | left
  | internal
  | right
deriving DecidableEq, Repr

/-- Modelled from the spec: classify the i-th of n runs as left (first),
right (last) or internal (anything else); a lone run counts as left. -/
def runPos (i n : Nat) : GapPos :=
  if i = 0 then GapPos.left else if i = n - 1 then GapPos.right else GapPos.internal

/-- The sub-list of runs falling in a given position bucket and class,
keeping each run's length. -/
def bucketRuns (runs : List (StepClass × Nat)) (p : GapPos) (c : StepClass) : List Nat :=
  (runs.enum.filter fun r => runPos r.1 runs.length = p ∧ r.2.1 = c).map fun r => r.2.2

/-- Modelled from the spec: number of gap-open events in a bucket — one per
run in that bucket. -/
def openEvents (runs : List (StepClass × Nat)) (p : GapPos) (c : StepClass) : Nat :=
  (bucketRuns runs p c).length

/-- Modelled from the spec: number of gap-extend events in a bucket — each
run of length `d` contributes `d - 1` extends. -/
def extendEvents (runs : List (StepClass × Nat)) (p : GapPos) (c : StepClass) : Nat :=
  ((bucketRuns runs p c).map fun d => d - 1).sum

/-- Modelled from the spec: the derived statistics snapshot produced by the
Counts Engine.  The twelve gap counters are the primitive stored
quantities; totals such as `gaps` are derived sums, mirroring the
`AlignmentCounts` attributes exercised by the test suite. -/
structure AlignmentCounts where
  open_left_insertions : Nat
  extend_left_insertions : Nat
  open_left_deletions : Nat
  extend_left_deletions : Nat
  open_internal_insertions : Nat
  extend_internal_insertions : Nat
  open_internal_deletions : Nat
  extend_internal_deletions : Nat
  open_right_insertions : Nat
  extend_right_insertions : Nat
  open_right_deletions : Nat
  extend_right_deletions : Nat
  identities : Nat
  mismatches : Nat
  aligned : Nat
deriving DecidableEq, Repr

namespace AlignmentCounts

/-- Total letters in left-gap insertions. -/
def left_insertions (c : AlignmentCounts) : Nat :=
  c.open_left_insertions + c.extend_left_insertions

/-- Total letters in left-gap deletions. -/
def left_deletions (c : AlignmentCounts) : Nat :=
  c.open_left_deletions + c.extend_left_deletions

/-- Total letters in internal-gap insertions. -/
def internal_insertions (c : AlignmentCounts) : Nat :=
  c.open_internal_insertions + c.extend_internal_insertions

/-- Total letters in internal-gap deletions. -/
def internal_deletions (c : AlignmentCounts) : Nat :=
  c.open_internal_deletions + c.extend_internal_deletions

/-- Total letters in right-gap insertions. -/
def right_insertions (c : AlignmentCounts) : Nat :=
  c.open_right_insertions + c.extend_right_insertions

/-- Total letters in right-gap deletions. -/
def right_deletions (c : AlignmentCounts) : Nat :=
  c.open_right_deletions + c.extend_right_deletions

/-- Total letters in left gaps. -/
def left_gaps (c : AlignmentCounts) : Nat := c.left_insertions + c.left_deletions

/-- Total letters in internal gaps. -/
def internal_gaps (c : AlignmentCounts) : Nat :=
  c.internal_insertions + c.internal_deletions

/-- Total letters in right gaps. -/
def right_gaps (c : AlignmentCounts) : Nat := c.right_insertions + c.right_deletions

/-- Total inserted letters. -/
def insertions (c : AlignmentCounts) : Nat :=
  c.left_insertions + c.internal_insertions + c.right_insertions

/-- Total deleted letters. -/
def deletions (c : AlignmentCounts) : Nat :=
  c.left_deletions + c.internal_deletions + c.right_deletions

/-- Total gapped letters. -/
def gaps (c : AlignmentCounts) : Nat :=
  c.left_gaps + c.internal_gaps + c.right_gaps

end AlignmentCounts

/-! ## Letter comparison along aligned runs

Literal sequence letters are supplied as total functions from absolute
coordinate positions to characters (the sequences themselves are huge and
only the aligned positions are ever sampled). -/

/-- Letter pairs of the aligned part of one column pair: the aligned length
is the smaller of the two advances; the target letter at offset `i` is
paired with the query letter at offset `i` (forward strand, query row
non-decreasing) or at offset `-(i+1)` from the previous breakpoint
(reverse strand, query row decreasing). -/
def stepPairs (t q : Nat → Char) (t1 q1 q2 : Nat) (a : Nat) : List (Char × Char) :=
  (List.range a).map fun i =>
    (t (t1 + i), if q1 ≤ q2 then q (q1 + i) else q (q1 - 1 - i))

/-- Modelled from the spec: all aligned letter pairs of an alignment, in
column order. -/
def alignedPairs (t q : Nat → Char) : List Nat → List Nat → List (Char × Char)
  | t1 :: t2 :: ts, q1 :: q2 :: qs =>
    stepPairs t q t1 q1 q2 (min (t2 - t1) (dist q1 q2)) ++
      alignedPairs t q (t2 :: ts) (q2 :: qs)
  | _, _ => []

/-- Modelled from the spec: the total number of aligned letters (pure gap
columns contribute nothing; a column pair with unequal positive advances
contributes its smaller advance). -/
def alignedTotal (tRow qRow : List Nat) : Nat :=
  ((colSteps tRow qRow).map fun s => min s.1 s.2).sum

/-- Modelled from the spec, corrected by the test suite: an aligned letter
pair is an identity exactly when the two letters are equal as stored
(case-sensitively); a soft-masked lowercase letter against its uppercase
counterpart is a mismatch. -/
def identitiesOf (t q : Nat → Char) (tRow qRow : List Nat) : Nat :=
  ((alignedPairs t q tRow qRow).filter fun p => p.1 = p.2).length

/-- Aligned letter pairs whose letters differ as stored are mismatches. -/
def mismatchesOf (t q : Nat → Char) (tRow qRow : List Nat) : Nat :=
  ((alignedPairs t q tRow qRow).filter fun p => ¬ p.1 = p.2).length

/-- Lowercase image of a character (soft-masked letters are lowercase). -/
def lowerChar (c : Char) : Char := c.toLower

/-- Number of aligned letter pairs with exactly equal letters; this is the
diagonal of the substitution tally and plays the role of `matches` in the
PSL convention. -/
def substMatches (t q : Nat → Char) (tRow qRow : List Nat) : Nat :=
  ((alignedPairs t q tRow qRow).filter fun p => p.1 = p.2).length

/-- Number of aligned letter pairs equal only up to case (a letter against
its soft-masked counterpart); this is the swap-case diagonal of the
substitution tally and plays the role of `repMatches` in the PSL
convention. -/
def substRepMatches (t q : Nat → Char) (tRow qRow : List Nat) : Nat :=
  ((alignedPairs t q tRow qRow).filter fun p =>
    ¬ p.1 = p.2 ∧ lowerChar p.1 = lowerChar p.2).length

/-- Modelled from the spec: the Counts Engine.  Walks the coordinate model,
normalizes column pairs into primitive steps, groups maximal runs,
classifies gap runs into left/internal/right buckets with one open event
per run and length-minus-one extend events, and compares literal letters
along aligned runs. -/
def countsOf (t q : Nat → Char) (tRow qRow : List Nat) : AlignmentCounts :=
  let runs := runsOf tRow qRow
  { open_left_insertions := openEvents runs GapPos.left StepClass.insertion
    extend_left_insertions := extendEvents runs GapPos.left StepClass.insertion
    open_left_deletions := openEvents runs GapPos.left StepClass.deletion
    extend_left_deletions := extendEvents runs GapPos.left StepClass.deletion
    open_internal_insertions := openEvents runs GapPos.internal StepClass.insertion
    extend_internal_insertions := extendEvents runs GapPos.internal StepClass.insertion
    open_internal_deletions := openEvents runs GapPos.internal StepClass.deletion
    extend_internal_deletions := extendEvents runs GapPos.internal StepClass.deletion
    open_right_insertions := openEvents runs GapPos.right StepClass.insertion
    extend_right_insertions := extendEvents runs GapPos.right StepClass.insertion
    open_right_deletions := openEvents runs GapPos.right StepClass.deletion
    extend_right_deletions := extendEvents runs GapPos.right StepClass.deletion
    identities := identitiesOf t q tRow qRow
    mismatches := mismatchesOf t q tRow qRow
    aligned := alignedTotal tRow qRow }

/-- Shape of the pairwise coordinate model: two rows by the number of
printed alignment columns (the sum over column pairs of the larger of the
two advances). -/
def shapeOf (tRow qRow : List Nat) : Nat × Nat :=
  (2, ((colSteps tRow qRow).map fun s => max s.1 s.2).sum)

/-- Strict increase check for a coordinate row. -/
def strictIncrB : List Nat → Bool
  | a :: b :: r => a < b && strictIncrB (b :: r)
  | _ => true

/-- Non-increase (monotone decrease, allowing flats at gap columns) check
for a coordinate row. -/
def nonIncrB : List Nat → Bool
  | a :: b :: r => b ≤ a && nonIncrB (b :: r)
  | _ => true

/-- Identity counting under case-insensitive letter comparison, following
the specification text literally (for comparison against the behaviour the
test suite mandates). -/
def identitiesSpecCaseInsensitive (t q : Nat → Char) (tRow qRow : List Nat) : Nat :=
  ((alignedPairs t q tRow qRow).filter fun p => lowerChar p.1 = lowerChar p.2).length

/-! ## Worked example data

Coordinate rows from the first alignment of `dna_rna.psl.bb`
(reverse-strand alignment of query NR_046654.1 against chr3), as asserted
by the test suite.  The literal FASTA sequences are not part of the
repository snapshot; `dnaRnaTargetLetters`/`dnaRnaQueryLetters` are witness
letter assignments realizing the substitution tally the test suite asserts
(175 exactly-equal pairs and 6 pairs equal only up to case). -/

/-- Target coordinate row of the worked gapped example. -/
def dnaRnaTargetRow : List Nat :=
  [42530895, 42530958, 42532020, 42532095, 42532563, 42532606]

/-- Query coordinate row of the worked gapped example (reverse strand). -/
def dnaRnaQueryRow : List Nat := [181, 118, 118, 43, 43, 0]

/-- Witness target letters: soft-masked (lowercase) on the first six
aligned positions, uppercase elsewhere. -/
def dnaRnaTargetLetters : Nat → Char := fun i => if i < 42530901 then 'a' else 'A'

/-- Witness query letters: uppercase everywhere. -/
def dnaRnaQueryLetters : Nat → Char := fun _ => 'A'

/-- Letters for the case-sensitivity counterexample: an all-lowercase
(soft-masked) target sequence. -/
def softMaskedTarget : Nat → Char := fun _ => 'a'

/-- Letters for the case-sensitivity counterexample: an all-uppercase
query sequence. -/
def plainQuery : Nat → Char := fun _ => 'A'

/-! ## Spatial index

Modelled from the spec: a bounding-interval tree over records keyed by
`(chromId, start, end)`.  Internal nodes carry (computed) bounding
intervals; a region query prunes any subtree whose bounding interval does
not overlap the query and filters the surviving records by fine-grained
overlap, so over-approximate pruning is sound. -/

/-- A stored record of the spatial index: chromosome id, half-open target
interval, and the record's name (standing for the decoded payload). -/
structure SRec where
  chrom : Nat
  s : Nat
  e : Nat
  name : String
deriving DecidableEq, Repr

/-- Modelled from the spec: fine-grained overlap of a record with the query
`(c, qs, qe)`: standard half-open interval overlap, extended so that a
degenerate record interval `[p, p)` matches whenever the query touches `p`,
and a zero-width query `[p, p)` matches every record containing `p`. -/
def FineOverlap (c qs qe : Nat) (r : SRec) : Prop :=
  r.chrom = c ∧
    ((r.s < qe ∧ qs < r.e) ∨
      (r.s = r.e ∧ qs ≤ r.s ∧ r.s ≤ qe) ∨
      (qs = qe ∧ r.s ≤ qs ∧ qs < r.e))

instance (c qs qe : Nat) (r : SRec) : Decidable (FineOverlap c qs qe r) := by
  unfold FineOverlap; infer_instance

/-- Bounding interval of a spatial-index subtree, from the minimal
`(chromId, start)` to the maximal `(chromId, end)`. -/
structure IBound where
  minC : Nat
  minS : Nat
  maxC : Nat
  maxE : Nat
deriving DecidableEq, Repr

/-- Bounding interval of a single record. -/
def boundOfRec (r : SRec) : IBound := ⟨r.chrom, r.s, r.chrom, r.e⟩

/-- Merge two bounding intervals into one covering both. -/
def mergeBound (a b : IBound) : IBound :=
  ⟨min a.minC b.minC, min a.minS b.minS, max a.maxC b.maxC, max a.maxE b.maxE⟩

/-- A bounding interval covers a record. -/
def Covers (b : IBound) (r : SRec) : Prop :=
  b.minC ≤ r.chrom ∧ r.chrom ≤ b.maxC ∧ b.minS ≤ r.s ∧ r.e ≤ b.maxE

/-- Modelled from the spec: the coarse pruning test of a subtree bound
against the query; deliberately permissive (closed-interval touch counts),
since false positives are filtered per record after decode. -/
def boundTest (c qs qe : Nat) (b : IBound) : Bool :=
  decide ((b.minC < c ∨ (b.minC = c ∧ b.minS ≤ qe)) ∧
    (c < b.maxC ∨ (c = b.maxC ∧ qs ≤ b.maxE)))

/-- Modelled from the spec: the hierarchical bounding-interval tree; leaves
hold the records of one data block, internal nodes bound their subtrees. -/
inductive RTree where
  | leaf (recs : List SRec)
  | node (left right : RTree)

/-- All records stored in a subtree, in file order. -/
def RTree.records : RTree → List SRec
  | leaf recs => recs
  | node l r => l.records ++ r.records

/-- Bounding interval of a subtree (`none` for an empty subtree). -/
def RTree.boundOf : RTree → Option IBound
  | leaf recs =>
    recs.foldr
      (fun r acc =>
        match acc with
        | none => some (boundOfRec r)
        | some b => some (mergeBound (boundOfRec r) b))
      none
  | node l r =>
    match l.boundOf, r.boundOf with
    | none, b => b
    | some a, none => some a
    | some a, some b => some (mergeBound a b)

/-- Modelled from the spec: region query over the spatial index: prune any
subtree whose bounding interval fails the coarse test, and filter the
records of surviving leaves by fine-grained overlap. -/
def RTree.query : RTree → Nat → Nat → Nat → List SRec
  | leaf recs, c, qs, qe =>
    match (RTree.leaf recs).boundOf with
    | none => []
    | some b =>
      if boundTest c qs qe b then recs.filter fun r => decide (FineOverlap c qs qe r)
      else []
  | node l r, c, qs, qe =>
    match (RTree.node l r).boundOf with
    | none => []
    | some b =>
      if boundTest c qs qe b then l.query c qs qe ++ r.query c qs qe
      else []

/-- Split a list into chunks of at most `max 1 n` elements. -/
def chunkList {α : Type} (n : Nat) (l : List α) : List (List α) :=
  match l with
  | [] => []
  | x :: xs => (x :: xs).take (max 1 n) :: chunkList n ((x :: xs).drop (max 1 n))
termination_by l.length
decreasing_by
  simp only [List.length_drop, List.length_cons]
  have h1 : 1 ≤ max 1 n := le_max_left 1 n
  omega

/-- Combine a list of subtrees into one balanced tree by repeated halving. -/
def mkTree (ls : List RTree) : RTree :=
  match ls with
  | [] => RTree.leaf []
  | [t] => t
  | t1 :: t2 :: rest =>
    RTree.node (mkTree ((t1 :: t2 :: rest).take ((rest.length + 2) / 2)))
      (mkTree ((t1 :: t2 :: rest).drop ((rest.length + 2) / 2)))
termination_by ls.length
decreasing_by
  · simp only [List.length_take, List.length_cons]
    omega
  · simp only [List.length_drop, List.length_cons]
    omega

/-- Modelled from the spec: build the spatial index over the (file-ordered)
record list: group records into leaves of a fixed block size, then wrap
leaves into bounding internal nodes. -/
def buildIndex (blockSize : Nat) (recs : List SRec) : RTree :=
  mkTree ((chunkList blockSize recs).map RTree.leaf)


/-! ## Cursors over an open container

Modelled from the spec: a cursor is an explicit object holding a selection
(the filtered view it advances through) and a position within that view;
the backing record list is read-only, so any number of cursors may be
interleaved.  Closing the container invalidates every access through it. -/

/-- What a cursor iterates over: the whole file, one chromosome, or a
region of one chromosome. -/
inductive Selection where
  | all
  | chromOnly (c : Nat)
  | region (c : Nat) (qs qe : Nat)
deriving DecidableEq, Repr

/-- The cursor's filtered view of the record list, in file order. -/
def selectRecs (recs : List SRec) : Selection → List SRec
  | Selection.all => recs
  | Selection.chromOnly c => recs.filter fun r => decide (r.chrom = c)
  | Selection.region c qs qe => recs.filter fun r => decide (FineOverlap c qs qe r)

/-- An open container: its records (the decoded content of its data
blocks) and whether it is still open. -/
structure Container where
  records : List SRec
  isOpen : Bool

/-- A cursor: its selection and its current position in the selected
view.  Cursors hold no other state. -/
structure Cursor where
  sel : Selection
  pos : Nat
deriving DecidableEq, Repr

/-- Advance a cursor one step: yield the record at its position (if any)
and the advanced cursor.  The record list is only read. -/
def cursorNext (recs : List SRec) (cur : Cursor) : Option SRec × Cursor :=
  match (selectRecs recs cur.sel)[cur.pos]? with
  | some r => (some r, { cur with pos := cur.pos + 1 })
  | none => (none, cur)

/-- Close the container. -/
def closeContainer (ct : Container) : Container := { ct with isOpen := false }

/-- Modelled from the spec: advancing a cursor through its container fails
with a "used after close" error once the container is closed. -/
def cursorNextChecked (ct : Container) (cur : Cursor) :
    Except String (Option SRec × Cursor) :=
  if ct.isOpen then Except.ok (cursorNext ct.records cur)
  else Except.error "used after close"

/-- Modelled from the spec: creating a new cursor on a closed container
also fails with a "used after close" error. -/
def searchChecked (ct : Container) (sel : Selection) : Except String Cursor :=
  if ct.isOpen then Except.ok { sel := sel, pos := 0 }
  else Except.error "used after close"

/-- Run an interleaving schedule over a family of cursors sharing one
record list: each schedule entry names the cursor to advance; the log
records, per step, which cursor moved and what it yielded. -/
def runSched (recs : List SRec) : List Cursor → List Nat → List (Nat × Option SRec)
  | _, [] => []
  | curs, j :: rest =>
    match curs[j]? with
    | none => runSched recs curs rest
    | some cur =>
      let step := cursorNext recs cur
      (j, step.1) :: runSched recs (curs.set j step.2) rest

/-- Advance a single cursor `n` times in isolation, logging what it
yields. -/
def isolatedRun (recs : List SRec) : Cursor → Nat → List (Option SRec)
  | _, 0 => []
  | cur, n + 1 =>
    let step := cursorNext recs cur
    step.1 :: isolatedRun recs step.2 n

/-- The outputs a given cursor received during an interleaved run. -/
def outputsFor (i : Nat) (log : List (Nat × Option SRec)) : List (Option SRec) :=
  (log.filter fun p => decide (p.1 = i)).map fun p => p.2

/-- Modelled from the test suite: `iter()` on the alignments object
restarts iteration from the beginning, in place. -/
def iterRestart (cur : Cursor) : Cursor := { cur with pos := 0 }

/-! ## Record decoder/encoder and the container round trip

Modelled from the spec: a stored row carries a block list (absolute target
block starts, absolute forward-strand query block starts, block lengths),
a strand flag, and opaque scalar annotations.  Decoding walks the block
list emitting breakpoint columns (with explicit gap columns between
blocks); for a reverse-strand row the query coordinates are mirrored
through the query length.  Encoding extracts maximal equal-advance runs as
blocks and derives the strand from the query row's net direction. -/

/-- One alignment block: absolute target start, absolute forward-strand
query start, and length. -/
structure Block where
  ts : Nat
  qs : Nat
  len : Nat
deriving DecidableEq, Repr

/-- Modelled from the spec: the declared-field content of one bigPsl row
(BED12-style block list plus the alignment-specific extra fields of the
declaration). -/
structure Row where
  tName : String
  qName : String
  qSize : Nat
  strandReverse : Bool
  blocks : List Block
  numMatches : Nat
  misMatches : Nat
  repMatches : Nat
  nCount : Nat
  score : Nat
  thickStart : Nat
  thickEnd : Nat
  itemRgb : String
deriving DecidableEq, Repr

/-- Modelled from the spec: the in-memory Alignment value: coordinate rows
plus pass-through scalar annotations. -/
structure Alignment where
  tName : String
  qName : String
  qSize : Nat
  tRow : List Nat
  qRow : List Nat
  numMatches : Nat
  misMatches : Nat
  repMatches : Nat
  nCount : Nat
  score : Nat
  thickStart : Nat
  thickEnd : Nat
  itemRgb : String
deriving DecidableEq, Repr

/-- Emit the breakpoint columns after the current position `(tc, qc)`:
between two consecutive blocks a query-side gap column and/or a
target-side gap column, then the end column of the next block. -/
def decodeCols (tc qc : Nat) : List Block → List (Nat × Nat)
  | [] => []
  | b :: bs =>
    (if qc = b.qs then [] else [(tc, b.qs)]) ++
      (if tc = b.ts then [] else [(b.ts, b.qs)]) ++
      ((b.ts + b.len, b.qs + b.len) :: decodeCols (b.ts + b.len) (b.qs + b.len) bs)

/-- Modelled from the spec: decode a block list into the breakpoint
columns of the coordinate model (forward-strand query coordinates). -/
def decodeBlocks : List Block → List (Nat × Nat)
  | [] => []
  | b :: bs => (b.ts, b.qs) :: decodeCols b.ts b.qs (b :: bs)

/-- Modelled from the spec: extract the block list back out of the
breakpoint columns: maximal runs in which both rows advance by the same
positive amount become blocks. -/
def encodeCols : List (Nat × Nat) → List Block
  | (t1, q1) :: (t2, q2) :: rest =>
    if t1 < t2 ∧ q1 < q2 ∧ t2 - t1 = q2 - q1 then
      match encodeCols ((t2, q2) :: rest) with
      | [] => [⟨t1, q1, t2 - t1⟩]
      | b :: bs =>
        if b.ts = t2 ∧ b.qs = q2 then ⟨t1, q1, t2 - t1 + b.len⟩ :: bs
        else ⟨t1, q1, t2 - t1⟩ :: b :: bs
    else encodeCols ((t2, q2) :: rest)
  | _ => []

/-- Well-formedness of the blocks after a current position: positive
length, non-overlapping, in order, with a genuine gap (on at least one
side) before each subsequent block. -/
def validFrom (tc qc : Nat) : List Block → Bool
  | [] => true
  | b :: bs =>
    decide (0 < b.len) && decide (tc ≤ b.ts) && decide (qc ≤ b.qs) &&
      (decide (tc < b.ts) || decide (qc < b.qs)) &&
      validFrom (b.ts + b.len) (b.qs + b.len) bs

/-- Well-formedness of a row's block list: at least one block, every block
of positive length, blocks in order and separated by genuine gaps. -/
def validBlocks : List Block → Bool
  | [] => false
  | b :: bs => decide (0 < b.len) && validFrom (b.ts + b.len) (b.qs + b.len) bs

/-- Final query offset after walking a block list from query offset
`qc`. -/
def qFin (qc : Nat) : List Block → Nat
  | [] => qc
  | b :: bs => qFin (b.qs + b.len) bs

/-- A row accepted by the writer: well-formed blocks that fit inside the
declared query length. -/
def validRow (r : Row) : Bool :=
  validBlocks r.blocks && decide (qFin 0 r.blocks ≤ r.qSize)

/-- Mirror a query coordinate row through the query length (reverse
strand). -/
def mirrorRow (qSize : Nat) (l : List Nat) : List Nat := l.map fun x => qSize - x

/-- Modelled from the spec: decode one stored row into an Alignment. -/
def decodeRow (r : Row) : Alignment :=
  let cols := decodeBlocks r.blocks
  let qF := cols.map Prod.snd
  { tName := r.tName
    qName := r.qName
    qSize := r.qSize
    tRow := cols.map Prod.fst
    qRow := if r.strandReverse then mirrorRow r.qSize qF else qF
    numMatches := r.numMatches
    misMatches := r.misMatches
    repMatches := r.repMatches
    nCount := r.nCount
    score := r.score
    thickStart := r.thickStart
    thickEnd := r.thickEnd
    itemRgb := r.itemRgb }

/-- Modelled from the spec: the strand is a derived property — compare the
first and last entries of the query coordinate row. -/
def detectReverse (qRow : List Nat) : Bool :=
  match qRow.head?, qRow.getLast? with
  | some h, some l => decide (l < h)
  | _, _ => false

/-- Modelled from the spec: encode an Alignment back into a stored row. -/
def encodeAlignment (a : Alignment) : Row :=
  let rev := detectReverse a.qRow
  let qF := if rev then mirrorRow a.qSize a.qRow else a.qRow
  { tName := a.tName
    qName := a.qName
    qSize := a.qSize
    strandReverse := rev
    blocks := encodeCols (a.tRow.zip qF)
    numMatches := a.numMatches
    misMatches := a.misMatches
    repMatches := a.repMatches
    nCount := a.nCount
    score := a.score
    thickStart := a.thickStart
    thickEnd := a.thickEnd
    itemRgb := a.itemRgb }

/-! ## Chromosome index and the container -/

/-- A chromosome entry of the container: internally-assigned id, name, and
sequence length. -/
structure ChromEntry where
  id : Nat
  name : String
  length : Nat
deriving DecidableEq, Repr

/-- Modelled from the spec: build the chromosome index from the chromosome
lengths: entries are ordered by name (lexicographic string order) and ids
are assigned densely in that order. -/
def buildChromIndex (chromLengths : List (String × Nat)) : List ChromEntry :=
  ((List.insertionSort (fun a b => a.1.toList ≤ b.1.toList) chromLengths).enum).map
    fun p => ⟨p.1, p.2.1, p.2.2⟩

/-- Exact-name lookup in the chromosome index. -/
def lookupChrom (entries : List ChromEntry) (name : String) : Option ChromEntry :=
  entries.find? fun e => e.name == name

/-- Serialized container content: declaration, chromosome index, and data
blocks of rows. -/
structure ContainerData where
  declaration : String
  targets : List ChromEntry
  blocks : List (List Row)
deriving Repr

/-- Chromosome id assigned to a target name by the container's index. -/
def chromIdOf (targets : List ChromEntry) (name : String) : Nat :=
  match lookupChrom targets name with
  | some e => e.id
  | none => 0

/-- Target start coordinate of a stored row (start of its first block). -/
def rowStart (r : Row) : Nat :=
  match r.blocks with
  | [] => 0
  | b :: _ => b.ts

/-- Writer sort order on rows: ascending (chromosome id, target start). -/
def rowLe (targets : List ChromEntry) (a b : Row) : Prop :=
  chromIdOf targets a.tName < chromIdOf targets b.tName ∨
    (chromIdOf targets a.tName = chromIdOf targets b.tName ∧ rowStart a ≤ rowStart b)

instance (targets : List ChromEntry) : DecidableRel (rowLe targets) := by
  intro a b; unfold rowLe; infer_instance

instance (targets : List ChromEntry) : IsTotal Row (rowLe targets) :=
  ⟨fun a b => by unfold rowLe; omega⟩

instance (targets : List ChromEntry) : IsTrans Row (rowLe targets) :=
  ⟨fun a b c h1 h2 => by unfold rowLe at *; omega⟩

/-- Modelled from the spec: the writer: assign chromosome ids, encode each
alignment into a row, sort rows by (chromosome id, start), bucket them
into blocks of at most `blockSize` rows, and serialize declaration,
chromosome index and blocks. -/
def writeContainer (declaration : String) (alignments : List Alignment)
    (chromLengths : List (String × Nat)) (blockSize : Nat) : ContainerData :=
  let targets := buildChromIndex chromLengths
  let rows := List.insertionSort (rowLe targets) (alignments.map encodeAlignment)
  { declaration := declaration
    targets := targets
    blocks := chunkList blockSize rows }

/-- Modelled from the spec: the whole-file search of an opened container:
stream every row of every data block, in file order, decoded. -/
def searchAllAlignments (ct : ContainerData) : List Alignment :=
  ct.blocks.flatten.map decodeRow



/-- Totality of the writer's chromosome-name sort key (lexicographic
character order on the name). -/
instance : IsTotal (String × Nat) (fun a b => a.1.toList ≤ b.1.toList) :=
  ⟨fun a b => le_total a.1.toList b.1.toList⟩

/-- Transitivity of the writer's chromosome-name sort key. -/
instance : IsTrans (String × Nat) (fun a b => a.1.toList ≤ b.1.toList) :=
  ⟨fun _ _ _ h1 h2 => le_trans h1 h2⟩

/-! ## Concrete data from the test corpus -/

/-- The eight records of `bigbedtest.psl.bb` from the searching tests
(chromosome ids: chr1 = 0, chr2 = 1, chr3 = 2). -/
def bigbedtestRecords : List SRec :=
  [⟨0, 10, 100, "name1"⟩, ⟨0, 29, 39, "name2"⟩, ⟨0, 200, 300, "name3"⟩,
    ⟨1, 50, 50, "name4"⟩, ⟨1, 100, 110, "name5"⟩, ⟨1, 200, 210, "name6"⟩,
    ⟨1, 220, 220, "name7"⟩, ⟨2, 0, 0, "name8"⟩]

/-- The ten chromosome names and lengths of `psl_34_001.psl.bb`, in the
unsorted order a caller might supply them. -/
def psl34ChromLengths : List (String × Nat) :=
  [("chr4", 191154276), ("chr1", 249250621), ("chr22", 51304566),
    ("chr2", 243199373), ("chr10", 135534747), ("chr9", 141213431),
    ("chr13", 115169878), ("chr8", 146364022), ("chr19", 59128983),
    ("chr18", 78077248)]

/-- A concrete stored row used to witness the round-trip theorem. -/
def exampleRow : Row :=
  { tName := "chr1"
    qName := "q"
    qSize := 60
    strandReverse := true
    blocks := [⟨100, 0, 10⟩, ⟨120, 10, 5⟩, ⟨125, 20, 8⟩]
    numMatches := 23
    misMatches := 0
    repMatches := 0
    nCount := 0
    score := 1000
    thickStart := 100
    thickEnd := 133
    itemRgb := "0" }

/-- The Alignment decoded from `exampleRow`. -/
def exampleAlignment : Alignment := decodeRow exampleRow

/-! ## General lemmas about the Counts Engine -/

theorem length_filter_add_not {α : Type} (l : List α) (p : α → Prop) [DecidablePred p] :
    (l.filter fun x => decide (p x)).length +
      (l.filter fun x => decide (¬ p x)).length = l.length := by
  induction l with
  | nil => rfl
  | cons a l ih => by_cases hp : p a <;> simp [List.filter_cons, hp] at ih ⊢ <;> omega

theorem length_filter_partition {α : Type} (l : List α) (p q : α → Prop)
    [DecidablePred p] [DecidablePred q] (h : ∀ x, q x → p x) :
    (l.filter fun x => decide (p x)).length =
      (l.filter fun x => decide (p x ∧ ¬ q x)).length +
        (l.filter fun x => decide (q x)).length := by
  induction l with
  | nil => rfl
  | cons a l ih =>
    by_cases hq : q a
    · have hp : p a := h a hq
      simp [List.filter_cons, hp, hq] at ih ⊢
      omega
    · by_cases hp : p a <;> simp [List.filter_cons, hp, hq] at ih ⊢ <;> omega

theorem alignedPairs_length (t q : Nat → Char) :
    ∀ tRow qRow, (alignedPairs t q tRow qRow).length = alignedTotal tRow qRow := by
  intro tRow
  induction tRow with
  | nil =>
    intro qRow
    rcases qRow with _ | ⟨q1, qs⟩ <;> simp [alignedPairs, alignedTotal, colSteps]
  | cons t1 ts ih =>
    intro qRow
    rcases ts with _ | ⟨t2, ts2⟩
    · rcases qRow with _ | ⟨q1, qs⟩ <;> simp [alignedPairs, alignedTotal, colSteps]
    · rcases qRow with _ | ⟨q1, qs⟩
      · simp [alignedPairs, alignedTotal, colSteps]
      · rcases qs with _ | ⟨q2, qs2⟩
        · simp [alignedPairs, alignedTotal, colSteps]
        · have := ih (q2 :: qs2)
          simp [alignedPairs, alignedTotal, colSteps, stepPairs] at this ⊢
          omega

theorem bucket_open_of_total_pos (runs : List (StepClass × Nat)) (p : GapPos)
    (c : StepClass) (h : 0 < openEvents runs p c + extendEvents runs p c) :
    1 ≤ openEvents runs p c := by
  unfold openEvents extendEvents at *
  cases hb : bucketRuns runs p c with
  | nil => rw [hb] at h; simp at h
  | cons a l => simp [hb]



/-! ## Claim C5 -/

/-- C5: for every Alignment (any coordinate rows, any letter assignment),
the AlignmentCounts produced by the Counts Engine satisfy
`identities + mismatches == aligned`, where `aligned` is the total count
of aligned-column letters excluding pure gap columns (gap columns are
never counted as aligned). -/
theorem C5_identities_plus_mismatches_eq_aligned (t q : Nat → Char)
    (tRow qRow : List Nat) :
    (countsOf t q tRow qRow).identities + (countsOf t q tRow qRow).mismatches =
      (countsOf t q tRow qRow).aligned := by
  show identitiesOf t q tRow qRow + mismatchesOf t q tRow qRow = alignedTotal tRow qRow
  rw [← alignedPairs_length t q tRow qRow]
  exact length_filter_add_not (alignedPairs t q tRow qRow) fun p => p.1 = p.2

/-! ## Claim C4 -/

/-- C4: for every Alignment, the AlignmentCounts produced by the Counts
Engine satisfy `insertions + deletions == gaps` and
`left_gaps + internal_gaps + right_gaps == gaps`, and for every gap bucket
the open event count is at least 1 whenever that bucket's total is
positive. -/
theorem C4_counts_sum_invariants (t q : Nat → Char) (tRow qRow : List Nat) :
    (countsOf t q tRow qRow).insertions + (countsOf t q tRow qRow).deletions =
        (countsOf t q tRow qRow).gaps ∧
      (countsOf t q tRow qRow).left_gaps + (countsOf t q tRow qRow).internal_gaps +
          (countsOf t q tRow qRow).right_gaps = (countsOf t q tRow qRow).gaps ∧
      (0 < (countsOf t q tRow qRow).left_insertions →
        1 ≤ (countsOf t q tRow qRow).open_left_insertions) ∧
      (0 < (countsOf t q tRow qRow).left_deletions →
        1 ≤ (countsOf t q tRow qRow).open_left_deletions) ∧
      (0 < (countsOf t q tRow qRow).internal_insertions →
        1 ≤ (countsOf t q tRow qRow).open_internal_insertions) ∧
      (0 < (countsOf t q tRow qRow).internal_deletions →
        1 ≤ (countsOf t q tRow qRow).open_internal_deletions) ∧
      (0 < (countsOf t q tRow qRow).right_insertions →
        1 ≤ (countsOf t q tRow qRow).open_right_insertions) ∧
      (0 < (countsOf t q tRow qRow).right_deletions →
        1 ≤ (countsOf t q tRow qRow).open_right_deletions) := by
  refine ⟨?_, ?_, ?_, ?_, ?_, ?_, ?_, ?_⟩
  · simp only [AlignmentCounts.insertions, AlignmentCounts.deletions,
      AlignmentCounts.gaps, AlignmentCounts.left_gaps, AlignmentCounts.internal_gaps,
      AlignmentCounts.right_gaps, AlignmentCounts.left_insertions,
      AlignmentCounts.left_deletions, AlignmentCounts.internal_insertions,
      AlignmentCounts.internal_deletions, AlignmentCounts.right_insertions,
      AlignmentCounts.right_deletions]
    omega
  · rfl
  · exact fun h => bucket_open_of_total_pos _ _ _ h
  · exact fun h => bucket_open_of_total_pos _ _ _ h
  · exact fun h => bucket_open_of_total_pos _ _ _ h
  · exact fun h => bucket_open_of_total_pos _ _ _ h
  · exact fun h => bucket_open_of_total_pos _ _ _ h
  · exact fun h => bucket_open_of_total_pos _ _ _ h

/-- Witness for C4 at the gapped worked example: its internal-deletion
bucket is positive, and the theorem yields an open count of at least 1
there. -/
theorem C4_counts_sum_invariants_witness :
    0 < (countsOf dnaRnaTargetLetters dnaRnaQueryLetters dnaRnaTargetRow
        dnaRnaQueryRow).internal_deletions ∧
      1 ≤ (countsOf dnaRnaTargetLetters dnaRnaQueryLetters dnaRnaTargetRow
        dnaRnaQueryRow).open_internal_deletions :=
  ⟨by decide,
    (C4_counts_sum_invariants dnaRnaTargetLetters dnaRnaQueryLetters dnaRnaTargetRow
      dnaRnaQueryRow).2.2.2.2.2.1 (by decide)⟩


/-! ## Claim C3 -/

/-- C3: the reverse-strand worked example with coordinate rows
`[[42530895, 42530958, 42532020, 42532095, 42532563, 42532606],
[181, 118, 118, 43, 43, 0]]` has shape (2, 1711), a strictly increasing
target row and a non-increasing query row running from 181 down to 0, and
its gap breakdown — for any letter assignment — is 1530 internal
deletions with 2 open and 1528 extend events; with the witness letter
assignment realizing the substitution tally the test suite asserts, the
diagonal (matches) count is 175 and the swap-case (repMatches) count
is 6. -/
theorem C3_gapped_worked_example :
    shapeOf dnaRnaTargetRow dnaRnaQueryRow = (2, 1711) ∧
      strictIncrB dnaRnaTargetRow = true ∧
      nonIncrB dnaRnaQueryRow = true ∧
      dnaRnaQueryRow.head? = some 181 ∧
      dnaRnaQueryRow.getLast? = some 0 ∧
      (∀ t q : Nat → Char,
        (countsOf t q dnaRnaTargetRow dnaRnaQueryRow).internal_deletions = 1530 ∧
          (countsOf t q dnaRnaTargetRow dnaRnaQueryRow).open_internal_deletions = 2 ∧
          (countsOf t q dnaRnaTargetRow dnaRnaQueryRow).extend_internal_deletions = 1528) ∧
      substMatches dnaRnaTargetLetters dnaRnaQueryLetters dnaRnaTargetRow
          dnaRnaQueryRow = 175 ∧
      substRepMatches dnaRnaTargetLetters dnaRnaQueryLetters dnaRnaTargetRow
          dnaRnaQueryRow = 6 ∧
      (countsOf dnaRnaTargetLetters dnaRnaQueryLetters dnaRnaTargetRow
          dnaRnaQueryRow).aligned = 181 :=
  ⟨by decide, by decide, by decide, by decide, by decide,
    fun t q =>
      ⟨by
        show openEvents (runsOf dnaRnaTargetRow dnaRnaQueryRow) GapPos.internal
            StepClass.deletion +
          extendEvents (runsOf dnaRnaTargetRow dnaRnaQueryRow) GapPos.internal
            StepClass.deletion = 1530
        decide,
      by
        show openEvents (runsOf dnaRnaTargetRow dnaRnaQueryRow) GapPos.internal
          StepClass.deletion = 2
        decide,
      by
        show extendEvents (runsOf dnaRnaTargetRow dnaRnaQueryRow) GapPos.internal
          StepClass.deletion = 1528
        decide⟩,
    by decide, by decide, by decide⟩

/-! ## Claim C6 -/

/-- C6 counterexample: a soft-masked lowercase target letter against its
uppercase counterpart is equal under case-insensitive comparison, yet the
Counts Engine counts the pair as a mismatch, not an identity — exactly as
the test suite mandates for the worked example, where the 181 aligned
pairs contain 6 swap-case pairs and the expected counts are 175
identities and 6 mismatches (a case-insensitive engine would report 181
identities and 0 mismatches there). -/
theorem C6_case_insensitive_identity_counterexample :
    lowerChar (Char.ofNat 97) = lowerChar (Char.ofNat 65) ∧
      ¬ Char.ofNat 97 = Char.ofNat 65 ∧
      (countsOf softMaskedTarget plainQuery [0, 1] [0, 1]).identities = 0 ∧
      (countsOf softMaskedTarget plainQuery [0, 1] [0, 1]).mismatches = 1 ∧
      identitiesSpecCaseInsensitive dnaRnaTargetLetters dnaRnaQueryLetters
          dnaRnaTargetRow dnaRnaQueryRow = 181 ∧
      (countsOf dnaRnaTargetLetters dnaRnaQueryLetters dnaRnaTargetRow
          dnaRnaQueryRow).identities = 175 ∧
      (countsOf dnaRnaTargetLetters dnaRnaQueryLetters dnaRnaTargetRow
          dnaRnaQueryRow).mismatches = 6 := by
  refine ⟨by decide, by decide, by decide, by decide, by decide, by decide, by decide⟩

/-- C6 (amended): the Counts Engine compares aligned letter pairs
case-sensitively: a pair is an identity exactly when the stored letters
are equal; every other pair is a mismatch, and the mismatches decompose
into the pairs equal only up to case (the swap-case/repMatches tally) and
the pairs unequal even case-insensitively. -/
theorem C6_amended_case_sensitive_identities (t q : Nat → Char)
    (tRow qRow : List Nat) :
    (countsOf t q tRow qRow).identities = substMatches t q tRow qRow ∧
      (countsOf t q tRow qRow).mismatches =
        substRepMatches t q tRow qRow +
          ((alignedPairs t q tRow qRow).filter fun p =>
            ¬ lowerChar p.1 = lowerChar p.2).length := by
  constructor
  · rfl
  · show mismatchesOf t q tRow qRow = _
    unfold mismatchesOf substRepMatches
    have key := length_filter_partition (alignedPairs t q tRow qRow)
      (fun p => ¬ p.1 = p.2) (fun p => ¬ lowerChar p.1 = lowerChar p.2)
      (fun p hq he => hq (by rw [he]))
    rw [key]
    have congrEq : ∀ x ∈ alignedPairs t q tRow qRow,
        (decide (¬ x.1 = x.2 ∧ ¬ ¬ lowerChar x.1 = lowerChar x.2) : Bool) =
          (decide (¬ x.1 = x.2 ∧ lowerChar x.1 = lowerChar x.2) : Bool) := by
      intro x _
      by_cases h1 : x.1 = x.2 <;> by_cases h2 : lowerChar x.1 = lowerChar x.2 <;>
        simp [h1, h2]
    rw [List.filter_congr congrEq]


/-! ## Spatial index lemmas and claim C2 -/

theorem chunkList_flatten {α : Type} (n : Nat) : ∀ l : List α, (chunkList n l).flatten = l
  | [] => by simp [chunkList]
  | x :: xs => by
    rw [chunkList]
    simp only [List.flatten_cons]
    rw [chunkList_flatten n ((x :: xs).drop (max 1 n))]
    exact List.take_append_drop _ _
termination_by l => l.length
decreasing_by
  simp only [List.length_drop, List.length_cons]
  have h1 : 1 ≤ max 1 n := le_max_left 1 n
  omega

theorem mkTree_records : ∀ ls : List RTree, (mkTree ls).records = (ls.map RTree.records).flatten
  | [] => by simp [mkTree, RTree.records]
  | [t] => by simp [mkTree]
  | t1 :: t2 :: rest => by
    rw [mkTree]
    show (mkTree ((t1 :: t2 :: rest).take ((rest.length + 2) / 2))).records ++
        (mkTree ((t1 :: t2 :: rest).drop ((rest.length + 2) / 2))).records = _
    rw [mkTree_records ((t1 :: t2 :: rest).take ((rest.length + 2) / 2)),
      mkTree_records ((t1 :: t2 :: rest).drop ((rest.length + 2) / 2))]
    rw [← List.flatten_append, ← List.map_append, List.take_append_drop]
termination_by ls => ls.length
decreasing_by
  · simp only [List.length_take, List.length_cons]
    omega
  · simp only [List.length_drop, List.length_cons]
    omega

theorem buildIndex_records (B : Nat) (recs : List SRec) :
    (buildIndex B recs).records = recs := by
  unfold buildIndex
  rw [mkTree_records, List.map_map]
  have h : RTree.records ∘ RTree.leaf = fun recs => recs := rfl
  rw [h]
  have h2 : List.map (fun recs => recs) (chunkList B recs) = chunkList B recs :=
    List.map_id _
  rw [h2, chunkList_flatten]

theorem covers_mergeBound_left (a b : IBound) (r : SRec) (h : Covers a r) :
    Covers (mergeBound a b) r := by
  obtain ⟨h1, h2, h3, h4⟩ := h
  exact ⟨Nat.le_trans (Nat.min_le_left _ _) h1, Nat.le_trans h2 (Nat.le_max_left _ _),
    Nat.le_trans (Nat.min_le_left _ _) h3, Nat.le_trans h4 (Nat.le_max_left _ _)⟩

theorem covers_mergeBound_right (a b : IBound) (r : SRec) (h : Covers b r) :
    Covers (mergeBound a b) r := by
  obtain ⟨h1, h2, h3, h4⟩ := h
  exact ⟨Nat.le_trans (Nat.min_le_right _ _) h1, Nat.le_trans h2 (Nat.le_max_right _ _),
    Nat.le_trans (Nat.min_le_right _ _) h3, Nat.le_trans h4 (Nat.le_max_right _ _)⟩

theorem foldBound_covers :
    ∀ (recs : List SRec) (r : SRec), r ∈ recs →
      ∃ b, (RTree.leaf recs).boundOf = some b ∧ Covers b r := by
  intro recs
  induction recs with
  | nil => intro r h; cases h
  | cons a rest ih =>
    intro r h
    show ∃ b,
      (match (RTree.leaf rest).boundOf with
        | none => some (boundOfRec a)
        | some b => some (mergeBound (boundOfRec a) b)) = some b ∧ Covers b r
    rcases List.mem_cons.mp h with he | hm
    · subst he
      cases hb : (RTree.leaf rest).boundOf with
      | none =>
        exact ⟨boundOfRec r, rfl, Nat.le_refl _, Nat.le_refl _, Nat.le_refl _, Nat.le_refl _⟩
      | some b2 =>
        exact ⟨mergeBound (boundOfRec r) b2, rfl,
          covers_mergeBound_left _ _ _ ⟨Nat.le_refl _, Nat.le_refl _, Nat.le_refl _, Nat.le_refl _⟩⟩
    · obtain ⟨b, hb, hc⟩ := ih r hm
      rw [hb]
      exact ⟨mergeBound (boundOfRec a) b, rfl, covers_mergeBound_right _ _ _ hc⟩

theorem boundOf_covers :
    ∀ (t : RTree) (r : SRec), r ∈ t.records → ∃ b, t.boundOf = some b ∧ Covers b r
  | RTree.leaf recs, r, h => foldBound_covers recs r h
  | RTree.node l rt, r, h => by
    show ∃ b,
      (match l.boundOf, rt.boundOf with
        | none, b => b
        | some a, none => some a
        | some a, some b => some (mergeBound a b)) = some b ∧ Covers b r
    rcases List.mem_append.mp h with h1 | h2
    · obtain ⟨b, hb, hc⟩ := boundOf_covers l r h1
      rw [hb]
      cases hr : rt.boundOf with
      | none => exact ⟨b, rfl, hc⟩
      | some b2 => exact ⟨mergeBound b b2, rfl, covers_mergeBound_left _ _ _ hc⟩
    · obtain ⟨b, hb, hc⟩ := boundOf_covers rt r h2
      rw [hb]
      cases hl : l.boundOf with
      | none => exact ⟨b, rfl, hc⟩
      | some b1 => exact ⟨mergeBound b1 b, rfl, covers_mergeBound_right _ _ _ hc⟩

theorem boundTest_of_overlap (b : IBound) (r : SRec) (c qs qe : Nat)
    (hc : Covers b r) (ho : FineOverlap c qs qe r) : boundTest c qs qe b = true := by
  obtain ⟨h1, h2, h3, h4⟩ := hc
  obtain ⟨hchrom, hcase⟩ := ho
  subst hchrom
  unfold boundTest
  simp only [decide_eq_true_eq]
  constructor
  · rcases Nat.lt_or_ge b.minC r.chrom with h | h
    · exact Or.inl h
    · refine Or.inr ⟨Nat.le_antisymm h1 h, ?_⟩
      rcases hcase with ⟨ha, hb⟩ | ⟨ha, hb, hcx⟩ | ⟨ha, hb, hcx⟩ <;> omega
  · rcases Nat.lt_or_ge r.chrom b.maxC with h | h
    · exact Or.inl h
    · refine Or.inr ⟨Nat.le_antisymm h2 h, ?_⟩
      rcases hcase with ⟨ha, hb⟩ | ⟨ha, hb, hcx⟩ | ⟨ha, hb, hcx⟩ <;> omega

theorem records_eq_nil_of_boundOf_none (t : RTree) (h : t.boundOf = none) :
    t.records = [] := by
  cases hr : t.records with
  | nil => rfl
  | cons a l =>
    obtain ⟨b, hb, _⟩ := boundOf_covers t a (by rw [hr]; exact List.mem_cons_self a l)
    rw [h] at hb
    cases hb

theorem records_filter_nil (t : RTree) (c qs qe : Nat) (b : IBound)
    (hb : t.boundOf = some b) (ht : boundTest c qs qe b = false) :
    t.records.filter (fun r => decide (FineOverlap c qs qe r)) = [] := by
  rw [List.filter_eq_nil_iff]
  intro r hr hov
  obtain ⟨b2, hb2, hc⟩ := boundOf_covers t r hr
  rw [hb] at hb2
  injection hb2 with e
  subst e
  rw [boundTest_of_overlap b r c qs qe hc (of_decide_eq_true hov)] at ht
  cases ht

theorem query_eq_filter :
    ∀ (t : RTree) (c qs qe : Nat),
      t.query c qs qe = t.records.filter fun r => decide (FineOverlap c qs qe r)
  | RTree.leaf recs, c, qs, qe => by
    show (match (RTree.leaf recs).boundOf with
      | none => []
      | some b =>
        if boundTest c qs qe b then recs.filter fun r => decide (FineOverlap c qs qe r)
        else []) = _
    cases hb : (RTree.leaf recs).boundOf with
    | none =>
      have h := records_eq_nil_of_boundOf_none _ hb
      show ([] : List SRec) = _
      rw [show (RTree.leaf recs).records = recs from rfl] at h
      rw [h]
      rfl
    | some b =>
      show (if boundTest c qs qe b = true
          then recs.filter fun r => decide (FineOverlap c qs qe r) else []) = _
      by_cases ht : boundTest c qs qe b = true
      · rw [if_pos ht]
        rfl
      · rw [if_neg ht]
        exact (records_filter_nil (RTree.leaf recs) c qs qe b hb
          (Bool.not_eq_true _ ▸ Bool.of_not_eq_true ht)).symm
  | RTree.node l rt, c, qs, qe => by
    show (match (RTree.node l rt).boundOf with
      | none => []
      | some b =>
        if boundTest c qs qe b then l.query c qs qe ++ rt.query c qs qe
        else []) = _
    cases hb : (RTree.node l rt).boundOf with
    | none =>
      have h := records_eq_nil_of_boundOf_none _ hb
      show ([] : List SRec) = _
      rw [show (RTree.node l rt).records = l.records ++ rt.records from rfl] at h
      rw [show (RTree.node l rt).records = l.records ++ rt.records from rfl, h]
      rfl
    | some b =>
      show (if boundTest c qs qe b = true
          then l.query c qs qe ++ rt.query c qs qe else []) = _
      by_cases ht : boundTest c qs qe b = true
      · rw [if_pos ht]
        rw [query_eq_filter l c qs qe, query_eq_filter rt c qs qe]
        rw [show (RTree.node l rt).records = l.records ++ rt.records from rfl]
        rw [List.filter_append]
      · rw [if_neg ht]
        exact (records_filter_nil (RTree.node l rt) c qs qe b hb
          (Bool.not_eq_true _ ▸ Bool.of_not_eq_true ht)).symm

/-- C2: region queries over the built spatial index are sound and
complete: searching returns exactly the stored records (in file order)
whose target interval overlaps the half-open query interval, where the
overlap predicate also matches a degenerate record interval touched by the
query and, for a zero-width query at `p`, every record containing `p`;
cross-checked against the concrete results the test suite expects on the
`bigbedtest` records, including the zero-width record and query cases. -/
theorem C2_region_query_sound_complete (B c qs qe : Nat) (recs : List SRec) :
    ((buildIndex B recs).query c qs qe =
        recs.filter fun r => decide (FineOverlap c qs qe r)) ∧
      ((buildIndex 3 bigbedtestRecords).query 1 40 50).map SRec.name = ["name4"] ∧
      ((buildIndex 3 bigbedtestRecords).query 1 50 50).map SRec.name = ["name4"] ∧
      ((buildIndex 3 bigbedtestRecords).query 1 220 220).map SRec.name = ["name7"] ∧
      ((buildIndex 3 bigbedtestRecords).query 1 110 1000).map SRec.name =
        ["name6", "name7"] ∧
      ((buildIndex 3 bigbedtestRecords).query 0 250 251).map SRec.name = ["name3"] := by
  refine ⟨?_, ?_, ?_, ?_, ?_, ?_⟩
  · rw [query_eq_filter, buildIndex_records]
  all_goals rw [query_eq_filter, buildIndex_records]
  all_goals decide


/-! ## Cursor lemmas and claims C7, C8, C10 -/

theorem outputsFor_cons_eq (i : Nat) (o : Option SRec) (log : List (Nat × Option SRec)) :
    outputsFor i ((i, o) :: log) = o :: outputsFor i log := by
  simp [outputsFor, List.filter_cons]

theorem outputsFor_cons_ne (i j : Nat) (o : Option SRec)
    (log : List (Nat × Option SRec)) (h : j ≠ i) :
    outputsFor i ((j, o) :: log) = outputsFor i log := by
  simp [outputsFor, List.filter_cons, h]

/-- C7: interleaving any schedule of `next()` calls over any family of
cursors sharing one open container yields, for each cursor, exactly the
same output sequence as that cursor advancing the same number of times in
isolation; advancing one cursor never disturbs another. -/
theorem C7_cursor_independence (recs : List SRec) :
    ∀ (sched : List Nat) (curs : List Cursor) (i : Nat) (cur : Cursor),
      curs[i]? = some cur →
      outputsFor i (runSched recs curs sched) = isolatedRun recs cur (sched.count i) := by
  intro sched
  induction sched with
  | nil =>
    intro curs i cur h
    simp [runSched, outputsFor, isolatedRun]
  | cons j rest ih =>
    intro curs i cur h
    show outputsFor i
      (match curs[j]? with
        | none => runSched recs curs rest
        | some cur2 =>
          (j, (cursorNext recs cur2).1) ::
            runSched recs (curs.set j (cursorNext recs cur2).2) rest) = _
    cases hj : curs[j]? with
    | none =>
      have hne : i ≠ j := by
        intro e
        rw [← e, h] at hj
        cases hj
      rw [ih curs i cur h, List.count_cons_of_ne hne]
    | some cur2 =>
      by_cases hji : j = i
      · subst hji
        rw [h] at hj
        injection hj with e
        subst e
        rw [outputsFor_cons_eq]
        have hlen : j < curs.length := by
          by_contra hc
          rw [List.getElem?_eq_none (Nat.le_of_not_lt hc)] at h
          cases h
        have hset : (curs.set j (cursorNext recs cur).2)[j]? =
            some (cursorNext recs cur).2 := List.getElem?_set_self hlen
        rw [ih (curs.set j (cursorNext recs cur).2) j (cursorNext recs cur).2 hset]
        rw [List.count_cons_self]
        rfl
      · rw [outputsFor_cons_ne _ _ _ _ hji]
        have hset : (curs.set j (cursorNext recs cur2).2)[i]? = some cur := by
          rw [List.getElem?_set_ne hji]
          exact h
        rw [ih (curs.set j (cursorNext recs cur2).2) i cur hset]
        rw [List.count_cons_of_ne fun e => hji e.symm]

/-- Witness for C7: the three-cursor interleaving of the searching test —
a whole-file cursor, a chr2 cursor and a region cursor over the
`bigbedtest` records — where the interleaved outputs of the chr2 cursor
match its isolated run. -/
theorem C7_cursor_independence_witness :
    ([Cursor.mk Selection.all 0, Cursor.mk (Selection.chromOnly 1) 0,
        Cursor.mk (Selection.region 1 110 1000) 0][1]? =
      some (Cursor.mk (Selection.chromOnly 1) 0)) ∧
    outputsFor 1 (runSched bigbedtestRecords
        [Cursor.mk Selection.all 0, Cursor.mk (Selection.chromOnly 1) 0,
          Cursor.mk (Selection.region 1 110 1000) 0]
        [0, 0, 1, 1, 1, 2, 2, 0, 0, 0, 1, 0, 0, 2, 0]) =
      isolatedRun bigbedtestRecords (Cursor.mk (Selection.chromOnly 1) 0)
        (([0, 0, 1, 1, 1, 2, 2, 0, 0, 0, 1, 0, 0, 2, 0] : List Nat).count 1) :=
  ⟨by decide,
    C7_cursor_independence bigbedtestRecords
      [0, 0, 1, 1, 1, 2, 2, 0, 0, 0, 1, 0, 0, 2, 0]
      [Cursor.mk Selection.all 0, Cursor.mk (Selection.chromOnly 1) 0,
        Cursor.mk (Selection.region 1 110 1000) 0]
      1 (Cursor.mk (Selection.chromOnly 1) 0) (by decide)⟩

/-- C8: closing an open container invalidates every access through it:
advancing any cursor of the closed container, or issuing a new search on
it, fails with the "used after close" error instead of returning data. -/
theorem C8_used_after_close (ct : Container) (cur : Cursor) (sel : Selection) :
    cursorNextChecked (closeContainer ct) cur = Except.error "used after close" ∧
      searchChecked (closeContainer ct) sel = Except.error "used after close" :=
  ⟨rfl, rfl⟩

theorem isolatedRun_from (recs : List SRec) (sel : Selection) :
    ∀ (n p : Nat), p + n ≤ (selectRecs recs sel).length →
      isolatedRun recs (Cursor.mk sel p) n =
        (((selectRecs recs sel).drop p).take n).map some := by
  intro n
  induction n with
  | zero => intro p hp; simp [isolatedRun]
  | succ n ih =>
    intro p hp
    have hlt : p < (selectRecs recs sel).length := by omega
    show (cursorNext recs (Cursor.mk sel p)).1 ::
      isolatedRun recs (cursorNext recs (Cursor.mk sel p)).2 n = _
    rw [show cursorNext recs (Cursor.mk sel p) =
        (some ((selectRecs recs sel)[p]), Cursor.mk sel (p + 1)) from by
      unfold cursorNext
      rw [List.getElem?_eq_getElem hlt]]
    rw [ih (p + 1) (by omega)]
    rw [List.drop_eq_getElem_cons hlt]
    rfl

/-- C10: calling `iter()` on the alignments object restarts iteration from
the beginning in place: a cursor in any state (in particular, fully
consumed) restarted via `iter()` behaves exactly like a fresh cursor over
the same selection, and running it to completion yields precisely the full
selected record sequence — the same sequence as the first pass. -/
theorem C10_iter_restarts_iteration (recs : List SRec) (cur : Cursor) :
    iterRestart cur = Cursor.mk cur.sel 0 ∧
      isolatedRun recs (iterRestart cur) (selectRecs recs cur.sel).length =
        (selectRecs recs cur.sel).map some ∧
      isolatedRun recs (iterRestart cur) (selectRecs recs cur.sel).length =
        isolatedRun recs (Cursor.mk cur.sel 0) (selectRecs recs cur.sel).length := by
  refine ⟨rfl, ?_, rfl⟩
  show isolatedRun recs (Cursor.mk cur.sel 0) (selectRecs recs cur.sel).length = _
  rw [isolatedRun_from recs cur.sel (selectRecs recs cur.sel).length 0 (by omega)]
  simp


/-! ## Record codec lemmas and claim C1 -/

theorem encodeCols_skip (t1 q1 t2 q2 : Nat) (rest : List (Nat × Nat))
    (h : ¬ (t1 < t2 ∧ q1 < q2 ∧ t2 - t1 = q2 - q1)) :
    encodeCols ((t1, q1) :: (t2, q2) :: rest) = encodeCols ((t2, q2) :: rest) := by
  simp only [encodeCols]
  rw [if_neg h]

theorem encodeCols_take (t1 q1 t2 q2 : Nat) (rest : List (Nat × Nat))
    (h : t1 < t2 ∧ q1 < q2 ∧ t2 - t1 = q2 - q1) :
    encodeCols ((t1, q1) :: (t2, q2) :: rest) =
      match encodeCols ((t2, q2) :: rest) with
      | [] => [⟨t1, q1, t2 - t1⟩]
      | b :: bs =>
        if b.ts = t2 ∧ b.qs = q2 then ⟨t1, q1, t2 - t1 + b.len⟩ :: bs
        else ⟨t1, q1, t2 - t1⟩ :: b :: bs := by
  simp only [encodeCols]
  rw [if_pos h]

theorem encodeCols_aligned_step (ts qs l : Nat) (bs : List Block) (hl : 0 < l)
    (hv : validFrom (ts + l) (qs + l) bs = true)
    (hrec : encodeCols ((ts + l, qs + l) :: decodeCols (ts + l) (qs + l) bs) = bs) :
    encodeCols ((ts, qs) :: (ts + l, qs + l) :: decodeCols (ts + l) (qs + l) bs) =
      Block.mk ts qs l :: bs := by
  rw [encodeCols_take ts qs (ts + l) (qs + l) (decodeCols (ts + l) (qs + l) bs)
    ⟨by omega, by omega, by omega⟩]
  rw [hrec]
  cases bs with
  | nil =>
    show [Block.mk ts qs (ts + l - ts)] = [Block.mk ts qs l]
    rw [show ts + l - ts = l from by omega]
  | cons b2 bs2 =>
    simp only [validFrom, Bool.and_eq_true, Bool.or_eq_true, decide_eq_true_eq] at hv
    have hgap : ¬ (b2.ts = ts + l ∧ b2.qs = qs + l) := by
      rcases hv with ⟨⟨⟨⟨h1, h2⟩, h3⟩, h4⟩, h5⟩
      rcases h4 with h4 | h4 <;> omega
    show (if b2.ts = ts + l ∧ b2.qs = qs + l then _ else
      Block.mk ts qs (ts + l - ts) :: b2 :: bs2) = _
    rw [if_neg hgap, show ts + l - ts = l from by omega]

theorem encodeCols_decodeCols :
    ∀ (bs : List Block) (tc qc : Nat), validFrom tc qc bs = true →
      encodeCols ((tc, qc) :: decodeCols tc qc bs) = bs := by
  intro bs
  induction bs with
  | nil => intro tc qc h; rfl
  | cons b rest ih =>
    intro tc qc h
    simp only [validFrom, Bool.and_eq_true, Bool.or_eq_true, decide_eq_true_eq] at h
    obtain ⟨⟨⟨⟨hlen, hts⟩, hqs⟩, hgap⟩, hvrest⟩ := h
    have hrec := ih (b.ts + b.len) (b.qs + b.len) hvrest
    have haligned := encodeCols_aligned_step b.ts b.qs b.len rest hlen hvrest hrec
    show encodeCols ((tc, qc) ::
      ((if qc = b.qs then [] else [(tc, b.qs)]) ++
        (if tc = b.ts then [] else [(b.ts, b.qs)]) ++
        ((b.ts + b.len, b.qs + b.len) ::
          decodeCols (b.ts + b.len) (b.qs + b.len) rest))) = b :: rest
    by_cases hq : qc = b.qs
    · have htlt : tc < b.ts := by
        rcases hgap with h1 | h2
        · exact h1
        · omega
      rw [if_pos hq, if_neg (by omega : ¬ tc = b.ts)]
      simp only [List.nil_append, List.singleton_append]
      rw [encodeCols_skip tc qc b.ts b.qs _ (by omega)]
      exact haligned
    · by_cases ht : tc = b.ts
      · rw [if_neg hq, if_pos ht]
        simp only [List.singleton_append, List.append_nil, List.nil_append]
        rw [encodeCols_skip tc qc tc b.qs _ (by omega)]
        rw [ht]
        exact haligned
      · rw [if_neg hq, if_neg ht]
        simp only [List.singleton_append, List.cons_append, List.nil_append]
        rw [encodeCols_skip tc qc tc b.qs _ (by omega)]
        rw [encodeCols_skip tc b.qs b.ts b.qs _ (by omega)]
        exact haligned

theorem encode_decode_blocks (bl : List Block) (h : validBlocks bl = true) :
    encodeCols (decodeBlocks bl) = bl := by
  cases bl with
  | nil => cases h
  | cons b rest =>
    simp only [validBlocks, Bool.and_eq_true, decide_eq_true_eq] at h
    obtain ⟨hlen, hv⟩ := h
    show encodeCols ((b.ts, b.qs) :: decodeCols b.ts b.qs (b :: rest)) = b :: rest
    rw [show decodeCols b.ts b.qs (b :: rest) =
        (b.ts + b.len, b.qs + b.len) :: decodeCols (b.ts + b.len) (b.qs + b.len) rest from by
      simp [decodeCols]]
    exact encodeCols_aligned_step b.ts b.qs b.len rest hlen hv
      (encodeCols_decodeCols rest (b.ts + b.len) (b.qs + b.len) hv)


theorem getLast?_cons_of_ne_nil {α : Type} (a : α) (l : List α) (h : l ≠ []) :
    (a :: l).getLast? = l.getLast? := by
  cases l with
  | nil => exact absurd rfl h
  | cons b m => simp [List.getLast?_cons_cons]

theorem decodeCols_ne_nil (tc qc : Nat) (b : Block) (bs : List Block) :
    decodeCols tc qc (b :: bs) ≠ [] := by
  show ((if qc = b.qs then ([] : List (Nat × Nat)) else [(tc, b.qs)]) ++
      (if tc = b.ts then ([] : List (Nat × Nat)) else [(b.ts, b.qs)]) ++
      ((b.ts + b.len, b.qs + b.len) :: decodeCols (b.ts + b.len) (b.qs + b.len) bs)) ≠ []
  simp

theorem le_qFin :
    ∀ (bs : List Block) (tc qc : Nat), validFrom tc qc bs = true → qc ≤ qFin qc bs := by
  intro bs
  induction bs with
  | nil => intro tc qc h; exact Nat.le_refl _
  | cons b rest ih =>
    intro tc qc h
    simp only [validFrom, Bool.and_eq_true, Bool.or_eq_true, decide_eq_true_eq] at h
    obtain ⟨⟨⟨⟨hlen, hts⟩, hqs⟩, hgap⟩, hvrest⟩ := h
    have h2 := ih (b.ts + b.len) (b.qs + b.len) hvrest
    show qc ≤ qFin (b.qs + b.len) rest
    omega

theorem decodeCols_q_le :
    ∀ (bs : List Block) (tc qc : Nat), validFrom tc qc bs = true →
      ∀ p ∈ decodeCols tc qc bs, p.2 ≤ qFin qc bs := by
  intro bs
  induction bs with
  | nil => intro tc qc h p hp; cases hp
  | cons b rest ih =>
    intro tc qc h p hp
    simp only [validFrom, Bool.and_eq_true, Bool.or_eq_true, decide_eq_true_eq] at h
    obtain ⟨⟨⟨⟨hlen, hts⟩, hqs⟩, hgap⟩, hvrest⟩ := h
    have hqf := le_qFin rest (b.ts + b.len) (b.qs + b.len) hvrest
    have hrec := ih (b.ts + b.len) (b.qs + b.len) hvrest
    show p.2 ≤ qFin (b.qs + b.len) rest
    have hp2 : p ∈ (if qc = b.qs then ([] : List (Nat × Nat)) else [(tc, b.qs)]) ++
        (if tc = b.ts then ([] : List (Nat × Nat)) else [(b.ts, b.qs)]) ++
        ((b.ts + b.len, b.qs + b.len) ::
          decodeCols (b.ts + b.len) (b.qs + b.len) rest) := hp
    simp only [List.mem_append, List.mem_cons] at hp2
    rcases hp2 with (hg1 | hg2) | he | hm
    · by_cases hc : qc = b.qs
      · rw [if_pos hc] at hg1; cases hg1
      · rw [if_neg hc] at hg1
        rw [List.mem_singleton.mp hg1]
        show b.qs ≤ _
        omega
    · by_cases hc : tc = b.ts
      · rw [if_pos hc] at hg2; cases hg2
      · rw [if_neg hc] at hg2
        rw [List.mem_singleton.mp hg2]
        show b.qs ≤ _
        omega
    · rw [he]
      show b.qs + b.len ≤ _
      omega
    · exact hrec p hm

theorem decodeCols_map_snd_getLast :
    ∀ (bs : List Block) (tc qc : Nat), bs ≠ [] →
      ((decodeCols tc qc bs).map Prod.snd).getLast? = some (qFin qc bs) := by
  intro bs
  induction bs with
  | nil => intro tc qc h; exact absurd rfl h
  | cons b rest ih =>
    intro tc qc _
    rcases rest with _ | ⟨r2, rs⟩
    · show (((if qc = b.qs then ([] : List (Nat × Nat)) else [(tc, b.qs)]) ++
          (if tc = b.ts then ([] : List (Nat × Nat)) else [(b.ts, b.qs)]) ++
          ((b.ts + b.len, b.qs + b.len) ::
            decodeCols (b.ts + b.len) (b.qs + b.len) [])).map Prod.snd).getLast? =
        some (qFin (b.qs + b.len) [])
      rw [List.map_append, List.getLast?_append_of_ne_nil _ (by simp)]
      rfl
    · show (((if qc = b.qs then ([] : List (Nat × Nat)) else [(tc, b.qs)]) ++
          (if tc = b.ts then ([] : List (Nat × Nat)) else [(b.ts, b.qs)]) ++
          ((b.ts + b.len, b.qs + b.len) ::
            decodeCols (b.ts + b.len) (b.qs + b.len) (r2 :: rs))).map Prod.snd).getLast? =
        some (qFin (b.qs + b.len) (r2 :: rs))
      rw [List.map_append, List.getLast?_append_of_ne_nil _ (by simp)]
      rw [List.map_cons]
      rw [getLast?_cons_of_ne_nil _ _ (fun hh =>
        decodeCols_ne_nil (b.ts + b.len) (b.qs + b.len) r2 rs (List.map_eq_nil_iff.mp hh))]
      exact ih (b.ts + b.len) (b.qs + b.len) (by simp)

theorem decodeBlocks_map_snd_getLast (b : Block) (rest : List Block) :
    ((decodeBlocks (b :: rest)).map Prod.snd).getLast? = some (qFin 0 (b :: rest)) := by
  show (b.qs :: (decodeCols b.ts b.qs (b :: rest)).map Prod.snd).getLast? = _
  rw [getLast?_cons_of_ne_nil _ _ (fun hh =>
    decodeCols_ne_nil b.ts b.qs b rest (List.map_eq_nil_iff.mp hh))]
  exact decodeCols_map_snd_getLast (b :: rest) b.ts b.qs (by simp)

theorem decodeBlocks_q_le (b : Block) (rest : List Block)
    (hv : validFrom (b.ts + b.len) (b.qs + b.len) rest = true) :
    ∀ x ∈ (decodeBlocks (b :: rest)).map Prod.snd, x ≤ qFin 0 (b :: rest) := by
  intro x hx
  rcases List.mem_map.mp hx with ⟨p, hp, he⟩
  rcases List.mem_cons.mp hp with he2 | hm
  · rw [← he, he2]
    show b.qs ≤ qFin (b.qs + b.len) rest
    have := le_qFin rest (b.ts + b.len) (b.qs + b.len) hv
    omega
  · have hred : decodeCols b.ts b.qs (b :: rest) = (b.ts + b.len, b.qs + b.len) ::
        decodeCols (b.ts + b.len) (b.qs + b.len) rest := by
      simp [decodeCols]
    rw [hred] at hm
    rcases List.mem_cons.mp hm with he2 | hm2
    · rw [← he, he2]
      show b.qs + b.len ≤ qFin (b.qs + b.len) rest
      exact le_qFin rest (b.ts + b.len) (b.qs + b.len) hv
    · rw [← he]
      exact decodeCols_q_le rest (b.ts + b.len) (b.qs + b.len) hv p hm2

theorem detect_forward (b : Block) (rest : List Block) (hlen : 0 < b.len)
    (hv : validFrom (b.ts + b.len) (b.qs + b.len) rest = true) :
    detectReverse ((decodeBlocks (b :: rest)).map Prod.snd) = false := by
  unfold detectReverse
  rw [show ((decodeBlocks (b :: rest)).map Prod.snd).head? = some b.qs from rfl]
  rw [decodeBlocks_map_snd_getLast b rest]
  show decide (qFin 0 (b :: rest) < b.qs) = false
  have h1 := le_qFin rest (b.ts + b.len) (b.qs + b.len) hv
  have hlt : b.qs < qFin (b.qs + b.len) rest := by omega
  simp only [decide_eq_false_iff_not]
  show ¬ qFin (b.qs + b.len) rest < b.qs
  omega

theorem detect_reverse (b : Block) (rest : List Block) (m : Nat) (hlen : 0 < b.len)
    (hv : validFrom (b.ts + b.len) (b.qs + b.len) rest = true)
    (hm : qFin 0 (b :: rest) ≤ m) :
    detectReverse (mirrorRow m ((decodeBlocks (b :: rest)).map Prod.snd)) = true := by
  unfold detectReverse mirrorRow
  rw [List.head?_map, List.getLast?_map]
  rw [show ((decodeBlocks (b :: rest)).map Prod.snd).head? = some b.qs from rfl]
  rw [decodeBlocks_map_snd_getLast b rest]
  show decide (m - qFin 0 (b :: rest) < m - b.qs) = true
  have h1 := le_qFin rest (b.ts + b.len) (b.qs + b.len) hv
  have hlt : b.qs < qFin (b.qs + b.len) rest := by omega
  have hm2 : qFin (b.qs + b.len) rest ≤ m := hm
  simp only [decide_eq_true_eq]
  show m - qFin (b.qs + b.len) rest < m - b.qs
  omega

theorem mirror_mirror (m : Nat) (l : List Nat) (hb : ∀ x ∈ l, x ≤ m) :
    mirrorRow m (mirrorRow m l) = l := by
  unfold mirrorRow
  rw [List.map_map]
  have h : ∀ x ∈ l, ((fun x => m - x) ∘ fun x => m - x) x = id x := by
    intro x hx
    have := hb x hx
    show m - (m - x) = x
    omega
  rw [List.map_congr_left h, List.map_id]

theorem zip_fst_snd (l : List (Nat × Nat)) :
    (l.map Prod.fst).zip (l.map Prod.snd) = l :=
  Eq.symm (List.zip_of_prod rfl rfl)


theorem encodeAlignment_decodeRow (r : Row) (h : validRow r = true) :
    encodeAlignment (decodeRow r) = r := by
  obtain ⟨tN, qN, qSz, rev, blf, m1, m2, m3, m4, sc, th1, th2, rgb⟩ := r
  simp only [validRow, Bool.and_eq_true, decide_eq_true_eq] at h
  obtain ⟨hvb, hqsz⟩ := h
  rcases blf with _ | ⟨b, rest⟩
  · cases hvb
  simp only [validBlocks, Bool.and_eq_true, decide_eq_true_eq] at hvb
  obtain ⟨hlen, hv⟩ := hvb
  have hbound : ∀ x ∈ (decodeBlocks (b :: rest)).map Prod.snd, x ≤ qSz :=
    fun x hx => Nat.le_trans (decodeBlocks_q_le b rest hv x hx) hqsz
  cases rev with
  | false =>
    simp only [decodeRow, encodeAlignment, Bool.false_eq_true, if_false]
    rw [detect_forward b rest hlen hv]
    simp only [Bool.false_eq_true, if_false]
    rw [zip_fst_snd, encode_decode_blocks _ (by
      simp only [validBlocks, Bool.and_eq_true, decide_eq_true_eq]
      exact ⟨hlen, hv⟩)]
  | true =>
    simp only [decodeRow, encodeAlignment, if_true]
    rw [detect_reverse b rest qSz hlen hv hqsz]
    simp only [if_true]
    rw [mirror_mirror qSz _ hbound]
    rw [zip_fst_snd, encode_decode_blocks _ (by
      simp only [validBlocks, Bool.and_eq_true, decide_eq_true_eq]
      exact ⟨hlen, hv⟩)]

/-- C1: the write/read round trip: for alignments accepted by the writer
(each encodes to a well-formed row, and the family is supplied in the
writer's (chromosome id, start) order, as any previously-written container
yields), opening the written container and streaming its whole-file search
yields alignments equal to the input on every field present in the
declaration — formally, the declared-field projection (the encoded row) of
every alignment read back equals that of the corresponding input
alignment.  Extra caller-supplied data beyond the declared fields has no
representation in `Row` and is not preserved. -/
theorem C1_write_read_roundtrip (declaration : String) (alignments : List Alignment)
    (chromLengths : List (String × Nat)) (blockSize : Nat)
    (hval : ∀ a ∈ alignments, validRow (encodeAlignment a) = true)
    (hsorted : List.Sorted (rowLe (buildChromIndex chromLengths))
      (alignments.map encodeAlignment)) :
    (searchAllAlignments
        (writeContainer declaration alignments chromLengths blockSize)).map
      encodeAlignment = alignments.map encodeAlignment := by
  unfold searchAllAlignments writeContainer
  rw [chunkList_flatten]
  rw [hsorted.insertionSort_eq]
  rw [List.map_map, List.map_map]
  apply List.map_congr_left
  intro a ha
  show encodeAlignment (decodeRow (encodeAlignment a)) = encodeAlignment a
  exact encodeAlignment_decodeRow (encodeAlignment a) (hval a ha)

/-- Witness for C1 at a concrete reverse-strand three-block alignment over
one chromosome. -/
theorem C1_write_read_roundtrip_witness :
    (∀ a ∈ [exampleAlignment], validRow (encodeAlignment a) = true) ∧
      (searchAllAlignments
          (writeContainer "bigPsl declaration" [exampleAlignment]
            [("chr1", 1000)] 4)).map encodeAlignment =
        [exampleAlignment].map encodeAlignment :=
  ⟨by decide,
    C1_write_read_roundtrip "bigPsl declaration" [exampleAlignment] [("chr1", 1000)] 4
      (by decide) (by simp)⟩


/-! ## Chromosome index ordering and claim C9 -/

/-- C9: for every open container, the chromosome entries (the targets
list) come out sorted by name in lexicographic string order, with ids
assigned densely in that order — a deterministic iteration order;
cross-checked on the ten chromosome names of `psl_34_001.psl.bb`, whose
expected order the test suite asserts, and on the claim's examples
`"chr10" < "chr2"` and `"chr22" < "chr4"`. -/
theorem C9_targets_sorted_by_name (chromLengths : List (String × Nat)) :
    List.Sorted (fun a b : ChromEntry => a.name ≤ b.name)
        (buildChromIndex chromLengths) ∧
      (buildChromIndex psl34ChromLengths).map ChromEntry.name =
        ["chr1", "chr10", "chr13", "chr18", "chr19", "chr2", "chr22", "chr4",
          "chr8", "chr9"] ∧
      (buildChromIndex psl34ChromLengths).map ChromEntry.id =
        [0, 1, 2, 3, 4, 5, 6, 7, 8, 9] ∧
      ("chr10" : String) < "chr2" ∧ ("chr22" : String) < "chr4" := by
  refine ⟨?_, by decide, by decide, String.lt_iff_toList_lt.mpr (by decide),
    String.lt_iff_toList_lt.mpr (by decide)⟩
  have hs := List.sorted_insertionSort (fun a b : String × Nat => a.1.toList ≤ b.1.toList)
    chromLengths
  have h2 : List.Pairwise (fun a b : String × Nat => a.1.toList ≤ b.1.toList)
      ((List.insertionSort (fun a b : String × Nat => a.1.toList ≤ b.1.toList)
        chromLengths).enum.map Prod.snd) := by
    rw [List.enum_map_snd]
    exact hs
  have h3 := List.pairwise_map.mp h2
  show List.Pairwise (fun a b : ChromEntry => a.name ≤ b.name)
    (((List.insertionSort (fun a b : String × Nat => a.1.toList ≤ b.1.toList)
      chromLengths).enum).map fun p => (⟨p.1, p.2.1, p.2.2⟩ : ChromEntry))
  apply List.pairwise_map.mpr
  exact h3.imp fun {p q} hpq => String.le_iff_toList_le.mpr hpq

end BigPsl
